import Mathlib

/-!
Verification development for the DDO entry generator
(`generate_ddo_entries.py`): a shallow embedding of the extraction
pipeline that turns one parsed dictionary document into a normalized
`Entry`, plus the batch driver.

Modelling conventions:
* BeautifulSoup node trees are embedded as the ordered sibling lists the
  code actually traverses; each extractor gets an inductive node type
  carrying exactly the attributes the code reads (class lists, ids,
  `get_text` results, nested `select_one` results as `Option` fields).
* Python `str` values are Lean `String`s; `get_text(..., strip=True)`
  results are stored already-extracted in the node model.
* Fallible code is embedded in `Except String`: every spot where the
  source calls `.get_text` on a possibly-`None` `select_one` result
  becomes `Except.error "AttributeError"`.
* Python dicts whose keys are inserted conditionally are embedded as
  structures with `Option` fields plus an explicit key-list function
  mirroring the insertion statements.
-/

/-! ### String helpers (Python `str` methods, `re` patterns) -/

/-- Python `s.strip()`: drop leading and trailing whitespace. -/
def pyStrip (s : String) : String :=
  String.mk (((s.data.dropWhile Char.isWhitespace).reverse.dropWhile
    Char.isWhitespace).reverse)

/-- Python `s.strip(" ,")`: drop leading and trailing spaces and commas. -/
def stripCommaSpace (s : String) : String :=
  String.mk (((s.data.dropWhile fun c => c == ' ' || c == ',').reverse.dropWhile
    fun c => c == ' ' || c == ',').reverse)

/-- `DIGITS_TRAIL_RE.sub("", s)` for `DIGITS_TRAIL_RE = re.compile(r"\d+$")`:
remove one trailing run of decimal digits. -/
def stripTrailingDigits (s : String) : String :=
  String.mk ((s.data.reverse.dropWhile Char.isDigit).reverse)

/-- Does the string end in a decimal digit (i.e. carry a trailing digit run)? -/
def endsInDigit (s : String) : Bool :=
  match s.data.reverse with
  | [] => false
  | c :: _ => c.isDigit

/-- Python `s.endswith(suf)` (code-point comparison). -/
def pyEndsWith (s suf : String) : Bool :=
  suf.data.isSuffixOf s.data

/-- Python `s.startswith(pre)` (code-point comparison). -/
def pyStartsWith (s pre : String) : Bool :=
  pre.data.isPrefixOf s.data

/-! ### `UNWANTED_TEXTS` and `clean_links` -/

/-- The `UNWANTED_TEXTS` boilerplate set. -/
def UNWANTED_TEXTS : List String :=
  ["...vis mere", "...vis mindre", "Læs mere om Den Danske Begrebsordbog"]

/-- `clean_links(a_tags)`: input is the list of anchor texts
(`a.get_text(strip=True)` per tag).  Boilerplate texts are dropped, a
trailing digit run is stripped from the rest, texts left empty are
dropped, order is preserved. -/
def clean_links : List String → List String
  | [] => []
  | txt :: rest =>
    if txt ∈ UNWANTED_TEXTS then clean_links rest
    else
      let txt' := stripTrailingDigits txt
      if txt' = "" then clean_links rest else txt' :: clean_links rest

/-! ### `SUFFIX_RE` and `transform_wordforms` -/

/-- One character of the class `[A-Za-zæøåÆØÅ]`. -/
def danishLetter (c : Char) : Bool :=
  (('A' ≤ c && c ≤ 'Z') || ('a' ≤ c && c ≤ 'z')) ||
    (c == 'æ' || c == 'ø' || c == 'å' || c == 'Æ' || c == 'Ø' || c == 'Å')

/-- `SUFFIX_RE.match(f)` for `SUFFIX_RE = re.compile(r"^-[A-Za-zæøåÆØÅ]{1,6}$")`. -/
def suffixMatch (s : String) : Bool :=
  match s.data with
  | '-' :: rest =>
    !rest.isEmpty && decide (rest.length ≤ 6) && rest.all danishLetter
  | _ => false

/-- `transform_wordforms(headword, forms)`: expand hyphen-suffix forms
against the headword, pass everything else through. -/
def transform_wordforms (headword : String) : List String → List String
  | [] => []
  | f :: fs =>
    (if suffixMatch f then headword ++ f.drop 1 else f) ::
      transform_wordforms headword fs

/-- Spec-side characterization of the suffix pattern ("hyphen + 1–6
letters including the three extra Danish vowels"), stated independently
of `suffixMatch` for claim C7. -/
def specSuffixForm (f : String) : Prop :=
  ∃ body : List Char, f.data = '-' :: body ∧ 1 ≤ body.length ∧
    body.length ≤ 6 ∧ ∀ c ∈ body, danishLetter c = true

/-! ### Pronunciation extractor (`parse_udtale`) -/

/-- A child of the pronunciation block's `span.tekstmedium`: either a
bare string (NavigableString) or a tag with its class list, its
`get_text(" ", strip=True)` text and the href of its first contained
`a[href$=".mp3"]` link (the only attributes the code reads). -/
inductive UdtaleNode where
  | text (s : String)
  | tag (classes : List String) (txt : String) (audio : Option String)
deriving DecidableEq, Repr

/-- One pronunciation record `{ipa, audio, label}`. -/
structure Pron where
  ipa : String
  audio : Option String
  label : Option String
deriving DecidableEq, Repr

/-- The code's backward label scan: walk the reversed prefix of the
child list, return the text of the nearest preceding `diskret` tag,
stopping (with no label) at an intervening `lydskrift` tag. -/
def backLabel : List UdtaleNode → Option String
  | [] => none
  | UdtaleNode.text _ :: rest => backLabel rest
  | UdtaleNode.tag cls txt _ :: rest =>
    if cls.contains "diskret" then some txt
    else if cls.contains "lydskrift" then none
    else backLabel rest

/-- Main loop of `parse_udtale`: `before` is the reversed list of
already-passed children (`reversed(children[:idx])`), `rest` the
children still to visit. -/
def parse_udtale_core : List UdtaleNode → List UdtaleNode → List Pron
  | _, [] => []
  | before, UdtaleNode.text s :: rest =>
    parse_udtale_core (UdtaleNode.text s :: before) rest
  | before, UdtaleNode.tag cls txt audio :: rest =>
    if cls.contains "lydskrift" then
      { ipa := txt, audio := audio, label := backLabel before } ::
        parse_udtale_core (UdtaleNode.tag cls txt audio :: before) rest
    else
      parse_udtale_core (UdtaleNode.tag cls txt audio :: before) rest

/-- `parse_udtale` over the ordered children of `span.tekstmedium`. -/
def parse_udtale (children : List UdtaleNode) : List Pron :=
  parse_udtale_core [] children

/-- A child is not marked as both a transcription and a discrete label. -/
def nodeClassesDisjoint : UdtaleNode → Bool
  | UdtaleNode.text _ => true
  | UdtaleNode.tag cls _ _ =>
    !(cls.contains "diskret" && cls.contains "lydskrift")

/-- Spec-side single forward pass with a pending-label slot (spec §4.3 /
§9): a `diskret` node sets the slot, a `lydskrift` node attaches and
clears it, anything else leaves it alone. -/
def specLabelPass : List UdtaleNode → Option String → List Pron
  | [], _ => []
  | UdtaleNode.text _ :: rest, pending => specLabelPass rest pending
  | UdtaleNode.tag cls txt audio :: rest, pending =>
    if cls.contains "lydskrift" then
      { ipa := txt, audio := audio, label := pending } :: specLabelPass rest none
    else if cls.contains "diskret" then
      specLabelPass rest (some txt)
    else
      specLabelPass rest pending

/-- `parse_udtale` at the document level: outer `Option` is
`div#id-udt`, inner is `span.tekstmedium`; either missing yields `[]`. -/
def parse_udtale_doc : Option (Option (List UdtaleNode)) → List Pron
  | none => []
  | some none => []
  | some (some children) => parse_udtale children

/-! ### Definitions extractor (`parse_definitions`) -/

/-- A `div.citat-box`: `span.citat` (code raises if missing) and
optional `span.kilde`. -/
structure CitatBox where
  citat : Option String
  kilde : Option String
deriving DecidableEq, Repr

/-- A `div.definitionBox.grammatik`: optional `span.inlineList` text and
the box's own text. -/
structure GramBox where
  inline : Option String
  txt : String
deriving DecidableEq, Repr

/-- What the code reads inside one `definitionIndent` block: the
`betydning-` definition span, the grammar box, the anchor texts of the
`onym` and `rel-begreber` boxes (when those boxes exist), and the
citation boxes in order. -/
structure IndentContent where
  defBox : Option String
  grammatik : Option GramBox
  onym : Option (List String)
  relBegreber : Option (List String)
  citatBoxes : List CitatBox
deriving DecidableEq, Repr

/-- A sibling inside `#content-betydninger`: a `div.definitionNumber`,
a `definitionIndent` block, or anything else. -/
inductive DefNode where
  | number (num : String)
  | indent (c : IndentContent)
  | other
deriving DecidableEq, Repr

/-- One example record `{text, source}`. -/
structure ExampleRec where
  text : String
  source : Option String
deriving DecidableEq, Repr

/-- One definition record.  `definition` and `grammar` are dict values
that may be `None`; `see_also`/`related` model *conditionally inserted*
keys: `none` means the key is absent from the dict. -/
structure SenseRecord where
  number : String
  definition : Option String
  grammar : Option String
  see_also : Option (List String)
  related : Option (List String)
  examples : List ExampleRec
deriving DecidableEq, Repr

/-- The keys of the Python dict built for one sense, in insertion order
(lines 164–188): `number`, `definition`, `grammar` always; `see_also`
and `related` only behind their walrus-`if`s; `examples` always. -/
def senseKeys (r : SenseRecord) : List String :=
  ["number", "definition", "grammar"] ++
    (if r.see_also.isSome then ["see_also"] else []) ++
    (if r.related.isSome then ["related"] else []) ++ ["examples"]

/-- The forward sibling scan `find_next_sibling()` loop: first following
sibling carrying the `definitionIndent` class (number markers and other
siblings are stepped over). -/
def findIndent : List DefNode → Option IndentContent
  | [] => none
  | DefNode.indent c :: _ => some c
  | _ :: rest => findIndent rest

/-- The `citat-box` loop: `cite.select_one("span.citat").get_text(...)`
raises when `span.citat` is missing. -/
def parseExamples : List CitatBox → Except String (List ExampleRec)
  | [] => Except.ok []
  | b :: bs =>
    match b.citat with
    | none => Except.error "AttributeError"
    | some txt =>
      match parseExamples bs with
      | Except.error e => Except.error e
      | Except.ok rest => Except.ok ({ text := txt, source := b.kilde } :: rest)

/-- Build the dict for one sense from its indent block (lines 164–188). -/
def mkSense (num : String) (c : IndentContent) : Except String SenseRecord :=
  match parseExamples c.citatBoxes with
  | Except.error e => Except.error e
  | Except.ok exs =>
    Except.ok
      { number := num
        definition := c.defBox
        grammar := c.grammatik.map fun g => g.inline.getD g.txt
        see_also := c.onym.map clean_links
        related := c.relBegreber.map clean_links
        examples := exs }

/-- The warning printed when a sense has no following indent block. -/
def warnMsg (fn num : String) : String :=
  "Warning " ++ fn ++ ": no definitionIndent for sense " ++ num

/-- `parse_definitions(soup, fn)` over the sibling list of
`#content-betydninger`: returns the sense records and the warning lines
printed for dropped senses. -/
def parse_definitions (fn : String) :
    List DefNode → Except String (List SenseRecord × List String)
  | [] => Except.ok ([], [])
  | DefNode.number num :: rest =>
    (match findIndent rest with
     | none =>
       match parse_definitions fn rest with
       | Except.error e => Except.error e
       | Except.ok (rs, ws) => Except.ok (rs, warnMsg fn num :: ws)
     | some c =>
       match mkSense num c with
       | Except.error e => Except.error e
       | Except.ok s =>
         match parse_definitions fn rest with
         | Except.error e => Except.error e
         | Except.ok (rs, ws) => Except.ok (s :: rs, ws))
  | DefNode.indent _ :: rest => parse_definitions fn rest
  | DefNode.other :: rest => parse_definitions fn rest

/-- Document level: `#content-betydninger` missing yields `[]`. -/
def parse_definitions_doc (fn : String) :
    Option (List DefNode) → Except String (List SenseRecord × List String)
  | none => Except.ok ([], [])
  | some l => parse_definitions fn l

/-! ### Fixed-expressions extractor (`parse_fixed_expressions`) -/

/-- A `div.definitionBox` directly inside a `definitionIndent` of the
fixed-expressions section, with the attributes the classifier reads. -/
structure FixedBox where
  classes : List String
  id : String
  txt : String
  links : List String
  inline : Option String
  stempel : Option String
  tekstnormal : Option String
  citat : Option CitatBox
deriving DecidableEq, Repr

/-- A sibling inside `#content-faste-udtryk`: an expression container
`div#udtryk-<n>` (with the optional `span.match` text), a
`definitionIndent` block with its direct-child boxes, another tag, or a
bare string. -/
inductive FixedNode where
  | udtryk (num : String) (matchSpan : Option String)
  | indent (boxes : List FixedBox)
  | otherTag
  | str
deriving DecidableEq, Repr

/-- One tagged detail record of a fixed expression. -/
inductive Detail where
  | definition (text : String)
  | see_also (items : List String)
  | related (items : List String)
  | grammar (text : String)
  | usage (text : String)
  | exampleD (text : String) (source : Option String)
deriving DecidableEq, Repr

/-- One fixed-expression record `{expression, details}`. -/
structure ExprRec where
  expression : String
  details : List Detail
deriving DecidableEq, Repr

/-- Classify one inner box (lines 215–259); the citation branch raises
when a `div.citat-box` lacks its `span.citat`. -/
def classifyBox (udId : String) (b : FixedBox) : Except String (Option Detail) :=
  if !(udId == "") && pyStartsWith b.id (udId ++ "-betydning") then
    Except.ok (some (Detail.definition b.txt))
  else if b.classes.contains "onym" then
    Except.ok (some (Detail.see_also (clean_links b.links)))
  else if b.classes.contains "rel-begreber" then
    Except.ok (some (Detail.related (clean_links b.links)))
  else if b.classes.contains "grammatik" then
    Except.ok (some (Detail.grammar (b.inline.getD b.txt)))
  else if b.stempel == some "SPROGBRUG" then
    Except.ok (b.tekstnormal.map Detail.usage)
  else
    match b.citat with
    | some cb =>
      match cb.citat with
      | none => Except.error "AttributeError"
      | some txt => Except.ok (some (Detail.exampleD txt cb.kilde))
    | none => Except.ok none

/-- Classify the direct-child boxes of one indent block in order. -/
def classifyBoxes (udId : String) : List FixedBox → Except String (List Detail)
  | [] => Except.ok []
  | b :: bs =>
    match classifyBox udId b with
    | Except.error e => Except.error e
    | Except.ok none => classifyBoxes udId bs
    | Except.ok (some d) =>
      match classifyBoxes udId bs with
      | Except.error e => Except.error e
      | Except.ok ds => Except.ok (d :: ds)

/-- The `next_sibling` walk collecting detail boxes for one expression:
stops at the next `udtryk-` container or the end of the sibling list. -/
def walkDetails (udId : String) : List FixedNode → Except String (List Detail)
  | [] => Except.ok []
  | FixedNode.udtryk _ _ :: _ => Except.ok []
  | FixedNode.indent boxes :: rest =>
    (match classifyBoxes udId boxes with
     | Except.error e => Except.error e
     | Except.ok ds =>
       match walkDetails udId rest with
       | Except.error e => Except.error e
       | Except.ok more => Except.ok (ds ++ more))
  | FixedNode.otherTag :: rest => walkDetails udId rest
  | FixedNode.str :: rest => walkDetails udId rest

/-- Loop of `parse_fixed_expressions` over the sibling list of
`#content-faste-udtryk`: an `udtryk` container without a `span.match`
is skipped (`continue`), one with a match gets its forward detail walk. -/
def parse_fixed_go : List FixedNode → Except String (List ExprRec)
  | [] => Except.ok []
  | FixedNode.udtryk num matchSpan :: rest =>
    (match matchSpan with
     | none => parse_fixed_go rest
     | some expr =>
       match walkDetails ("udtryk-" ++ num) rest with
       | Except.error e => Except.error e
       | Except.ok ds =>
         match parse_fixed_go rest with
         | Except.error e => Except.error e
         | Except.ok more =>
           Except.ok ({ expression := expr, details := ds } :: more))
  | FixedNode.indent _ :: rest => parse_fixed_go rest
  | FixedNode.otherTag :: rest => parse_fixed_go rest
  | FixedNode.str :: rest => parse_fixed_go rest

/-- A node is not an expression container. -/
def notUdtryk : FixedNode → Bool
  | FixedNode.udtryk _ _ => false
  | _ => true

/-- A node is an expression container that carries a match span. -/
def isMatchedUdtryk : FixedNode → Bool
  | FixedNode.udtryk _ (some _) => true
  | _ => false

/-! ### Word-formation extractor (`parse_orddannelser`) -/

/-- A child of a `span.inlineList`: an `<a>` tag (with its text), a bare
string, or another tag. -/
inductive InlineNode where
  | a (form : String)
  | str (s : String)
  | otherTag
deriving DecidableEq, Repr

/-- Concatenate the string siblings immediately following an `<a>`. -/
def gatherTail : List InlineNode → String
  | InlineNode.str s :: rest => s ++ gatherTail rest
  | _ => ""

/-- The inline-list loop (lines 51–64): each `<a>` yields its text plus
any immediately trailing plain-text content. -/
def parseInline : List InlineNode → List String
  | [] => []
  | InlineNode.a form :: rest =>
    let tail := pyStrip (gatherTail rest)
    (if tail ≠ "" then form ++ " " ++ tail else form) :: parseInline rest
  | InlineNode.str _ :: rest => parseInline rest
  | InlineNode.otherTag :: rest => parseInline rest

/-- A `div.definitionBox` of `#content-orddannelser`: `span.stempel`
(code raises when missing) and optional `span.inlineList` children. -/
structure OrdBox where
  stempel : Option String
  inline : Option (List InlineNode)
deriving DecidableEq, Repr

/-- The items of one category box. -/
def ordItems (box : OrdBox) : List String :=
  match box.inline with
  | none => []
  | some children => parseInline children

/-- Python dict assignment `result[cat] = items`: replace in place if
the key exists, else append. -/
def dictInsert (acc : List (String × List String)) (k : String)
    (v : List String) : List (String × List String) :=
  if acc.any fun p => p.1 = k then
    acc.map fun p => if p.1 = k then (k, v) else p
  else acc ++ [(k, v)]

/-- Box loop of `parse_orddannelser`. -/
def parse_orddannelser_go :
    List OrdBox → List (String × List String) →
      Except String (List (String × List String))
  | [], acc => Except.ok acc
  | box :: rest, acc =>
    match box.stempel with
    | none => Except.error "AttributeError"
    | some cat => parse_orddannelser_go rest (dictInsert acc cat (ordItems box))

/-- `parse_orddannelser(soup)`: missing `#content-orddannelser` yields
the empty mapping. -/
def parse_orddannelser : Option (List OrdBox) →
    Except String (List (String × List String))
  | none => Except.ok []
  | some boxes => parse_orddannelser_go boxes []

/-! ### Etymology extractor (`parse_etymology`) -/

/-- A child of the origin section's `span.tekstmedium`: a bare string or
a tag with name, class list and text. -/
inductive EtymNode where
  | str (s : String)
  | tag (name : String) (classes : List String) (txt : String)
deriving DecidableEq, Repr

/-- One etymology segment `{form, description}`. -/
structure EtymSeg where
  form : String
  description : String
deriving DecidableEq, Repr

/-- The etymology record `{raw, segments}`. -/
structure Etym where
  raw : String
  segments : List EtymSeg
deriving DecidableEq, Repr

/-- The contents walk of `parse_etymology` (lines 132–145), with the
running description buffer. -/
def etymWalk : List EtymNode → String → List EtymSeg
  | [], _ => []
  | EtymNode.str s :: rest, desc => etymWalk rest (desc ++ s)
  | EtymNode.tag name cls txt :: rest, desc =>
    if (name == "span" || name == "a") && (cls.contains "ordform" || name == "a") then
      { form := txt, description := stripCommaSpace desc } :: etymWalk rest ""
    else if cls.contains "dividerDot" then etymWalk rest desc
    else etymWalk rest (desc ++ txt)

/-- The origin section's `span.tekstmedium`: its full text and children. -/
structure EtymSpan where
  raw : String
  nodes : List EtymNode
deriving DecidableEq, Repr

/-- `parse_etymology(soup)`: outer `Option` is the `Oprindelse` label,
inner the adjacent `span.tekstmedium`. -/
def parse_etymology : Option (Option EtymSpan) → Option Etym
  | none => none
  | some none => none
  | some (some sp) => some { raw := sp.raw, segments := etymWalk sp.nodes "" }

/-! ### Word-forms extractor (`parse_wordforms`) -/

/-- `text.split(",")`, strip, drop empties. -/
def splitForms (text : String) : List String :=
  ((text.splitOn ",").map pyStrip).filter fun f => !(f == "")

/-- `parse_wordforms(soup)`: outer `Option` is the `Bøjning` label,
inner the following sibling `span`'s text (missing sibling reads ""). -/
def parse_wordforms : Option (Option String) → List String
  | none => []
  | some sib => splitForms (sib.getD "")

/-! ### Entry assembly (`parse_entry`) and batch driver (`main`) -/

/-- What `parse_entry` and `parse_fixed_expressions` read from
`div.artikel`: the banner `span.match` text, the banner
`span.tekstmedium` text, and the `#content-faste-udtryk` sibling list. -/
structure ArtikelData where
  bannerMatch : Option String
  bannerPos : Option String
  fasteUdtryk : Option (List FixedNode)
deriving DecidableEq, Repr

/-- One parsed document: each field is what the corresponding selector
finds (`none` = node absent). -/
structure Doc where
  artikel : Option ArtikelData
  udt : Option (Option (List UdtaleNode))
  bojning : Option (Option String)
  etym : Option (Option EtymSpan)
  betydninger : Option (List DefNode)
  orddannelser : Option (List OrdBox)
deriving DecidableEq, Repr

/-- One normalized Entry (the dict of lines 281–291). -/
structure Entry where
  file : String
  headword : String
  pos : Option String
  udtale : List Pron
  wordforms : List String
  etymology : Option Etym
  definitions : List SenseRecord
  fixed_expressions : List ExprRec
  orddannelser : List (String × List String)
deriving DecidableEq, Repr

/-- The keys of the Entry dict, in insertion order; all nine are set
unconditionally by the dict literal of lines 281–291. -/
def entryKeys (_ : Entry) : List String :=
  ["file", "headword", "pos", "udtale", "wordforms", "etymology",
   "definitions", "fixed_expressions", "orddannelser"]

/-- `parse_fixed_expressions(soup)`: re-selects `div.artikel`; missing
article or missing `#content-faste-udtryk` yields `[]`. -/
def parse_fixed_expressions : Option ArtikelData → Except String (List ExprRec)
  | none => Except.ok []
  | some art =>
    match art.fasteUdtryk with
    | none => Except.ok []
    | some nodes => parse_fixed_go nodes

/-- `parse_entry(path)` (lines 265–291): missing `div.artikel` is the
skip signal (`None`); a present article whose banner `span.match` is
missing raises (`select_one(...)` is `None`, `.get_text` explodes). -/
def parse_entry (fn : String) (doc : Doc) : Except String (Option Entry) :=
  match doc.artikel with
  | none => Except.ok none
  | some art =>
    match art.bannerMatch with
    | none => Except.error "AttributeError"
    | some rawHead =>
      let headword := pyStrip (stripTrailingDigits (pyStrip rawHead))
      let rawForms := (parse_wordforms doc.bojning).filter fun f => !(f == rawHead)
      let forms := transform_wordforms headword rawForms
      match parse_definitions_doc fn doc.betydninger with
      | Except.error e => Except.error e
      | Except.ok defs =>
        match parse_fixed_expressions doc.artikel with
        | Except.error e => Except.error e
        | Except.ok fixed =>
          match parse_orddannelser doc.orddannelser with
          | Except.error e => Except.error e
          | Except.ok ord =>
            Except.ok (some
              { file := fn
                headword := headword
                pos := art.bannerPos
                udtale := parse_udtale_doc doc.udt
                wordforms := forms
                etymology := parse_etymology doc.etym
                definitions := defs.1
                fixed_expressions := fixed
                orddannelser := ord })

/-- Code-point comparison of strings as lists of chars (Python string
`<=` used by `sorted`). -/
def codeLe (a b : List Char) : Bool :=
  match a, b with
  | [], _ => true
  | _ :: _, [] => false
  | c :: cs, d :: ds => if c = d then codeLe cs ds else decide (c < d)

/-- Ordering of directory entries by filename. -/
def fileLe (a b : String × Doc) : Bool :=
  codeLe a.1.data b.1.data

/-- `sorted(os.listdir(HTML_DIR))`: the directory as a filename→document
list, sorted lexicographically by filename. -/
def sortFiles (dir : List (String × Doc)) : List (String × Doc) :=
  List.insertionSort (fun a b => fileLe a b = true) dir

/-- The filename filter of the driver loop. -/
def isHtml (p : String × Doc) : Bool :=
  pyEndsWith p.1 ".html"

/-- The driver loop over the (already sorted) directory listing:
non-`.html` names are skipped outright; a `None` parse retains the
filename in the skip report; an exception aborts the run. -/
def mainGo : List (String × Doc) → Except String (List Entry × List String)
  | [] => Except.ok ([], [])
  | p :: rest =>
    if isHtml p then
      match parse_entry p.1 p.2 with
      | Except.error e => Except.error e
      | Except.ok none =>
        (match mainGo rest with
         | Except.error e => Except.error e
         | Except.ok (es, sk) => Except.ok (es, p.1 :: sk))
      | Except.ok (some ent) =>
        match mainGo rest with
        | Except.error e => Except.error e
        | Except.ok (es, sk) => Except.ok (ent :: es, sk)
    else mainGo rest

/-- `main()`: process the directory in sorted filename order.  (Named
`main'` because Lean reserves `main`.) -/
def main' (dir : List (String × Doc)) : Except String (List Entry × List String) :=
  mainGo (sortFiles dir)

/-! ### Well-formedness: the inputs on which no extractor raises -/

/-- Every citation box has its `span.citat`. -/
def citWF (cb : CitatBox) : Bool :=
  cb.citat.isSome

/-- All citation boxes of an indent block are well-formed. -/
def indentWF (c : IndentContent) : Bool :=
  c.citatBoxes.all citWF

/-- Well-formedness of a definitions-block sibling. -/
def defNodeWF : DefNode → Bool
  | DefNode.indent c => indentWF c
  | _ => true

/-- A fixed-expression box whose citation box (if any) has its citat span. -/
def fixedBoxWF (b : FixedBox) : Bool :=
  match b.citat with
  | none => true
  | some cb => citWF cb

/-- Well-formedness of a fixed-expressions-section sibling. -/
def fixedNodeWF : FixedNode → Bool
  | FixedNode.indent boxes => boxes.all fixedBoxWF
  | _ => true

/-- Well-formedness of a word-formation box (its `span.stempel` exists). -/
def ordBoxWF (b : OrdBox) : Bool :=
  b.stempel.isSome

/-- A document on which no extractor below the banner raises. -/
def docWF (doc : Doc) : Bool :=
  (match doc.betydninger with
   | none => true
   | some l => l.all defNodeWF) &&
  (match doc.orddannelser with
   | none => true
   | some l => l.all ordBoxWF) &&
  (match doc.artikel with
   | none => true
   | some art =>
     match art.fasteUdtryk with
     | none => true
     | some l => l.all fixedNodeWF)

/-- Does `parse_entry` raise on this directory entry? -/
def parseCrashes (p : String × Doc) : Bool :=
  match parse_entry p.1 p.2 with
  | Except.error _ => true
  | Except.ok _ => false

/-- Is an `Except` value a success? -/
def isOkB {ε α : Type} : Except ε α → Bool
  | Except.ok _ => true
  | Except.error _ => false

/-! ## Theorems -/

/-- C6: link-cleaning drops exactly the boilerplate texts, strips a
trailing digit run from the survivors, drops texts left empty, and
preserves order; on `["...vis mere", "begreb12", "ord"]` it yields
`["begreb", "ord"]`. -/
theorem C6_clean_links_spec :
    (∀ l : List String,
      clean_links l =
        ((l.filter fun t => decide (t ∉ UNWANTED_TEXTS)).map
            stripTrailingDigits).filter fun t => decide (t ≠ "")) ∧
    clean_links ["...vis mere", "begreb12", "ord"] = ["begreb", "ord"] := by
  constructor
  · intro l
    induction l with
    | nil => rfl
    | cons t rest ih =>
      by_cases h : t ∈ UNWANTED_TEXTS
      · simp [clean_links, h, ih]
      · by_cases h2 : stripTrailingDigits t = ""
        · simp [clean_links, h, h2, ih]
        · simp [clean_links, h, h2, ih]
  · decide

/-- C7: suffix expansion rewrites exactly the forms matching "hyphen
followed by 1–6 letters (including æ, ø, å in either case)" to
`headword ++ form-without-hyphen` and passes every other form through;
`["-et", "-ene"]` with headword `"hus"` yields `["huset", "husene"]`. -/
theorem C7_transform_wordforms_spec :
    (∀ f : String, suffixMatch f = true ↔ specSuffixForm f) ∧
    (∀ (hw : String) (forms : List String),
      transform_wordforms hw forms =
        forms.map fun f => if suffixMatch f then hw ++ f.drop 1 else f) ∧
    transform_wordforms "hus" ["-et", "-ene"] = ["huset", "husene"] := by
  refine ⟨?_, ?_, by decide⟩
  · intro f
    constructor
    · intro h
      cases hd : f.data with
      | nil => rw [suffixMatch, hd] at h; exact absurd h (by decide)
      | cons c rest =>
        rw [suffixMatch, hd] at h
        by_cases hc : c = '-'
        · subst hc
          simp only [Bool.and_eq_true, decide_eq_true_eq, List.all_eq_true,
            Bool.not_eq_true'] at h
          refine ⟨rest, hd, ?_, h.1.2, fun c hc => h.2 c hc⟩
          cases rest with
          | nil => simp [List.isEmpty] at h
          | cons _ _ => simp
        · exfalso
          revert h
          cases c
          simp_all [suffixMatch]
    · rintro ⟨body, hdata, h1, h6, hall⟩
      rw [suffixMatch, hdata]
      simp only [Bool.and_eq_true, decide_eq_true_eq, List.all_eq_true,
        Bool.not_eq_true']
      refine ⟨⟨?_, h6⟩, fun c hc => hall c hc⟩
      cases body with
      | nil => simp at h1
      | cons _ _ => simp [List.isEmpty]
  · intro hw forms
    induction forms with
    | nil => rfl
    | cons f fs ih => simp [transform_wordforms, ih]

/-- The code's indexed backward scan agrees with the forward pending-label
pass, step by step: the pending slot is exactly what the backward scan
over the already-passed (reversed) prefix would return. -/
theorem parse_udtale_core_eq_specLabelPass (rest : List UdtaleNode) :
    ∀ before : List UdtaleNode, rest.all nodeClassesDisjoint = true →
      parse_udtale_core before rest = specLabelPass rest (backLabel before) := by
  induction rest with
  | nil => intro before _; rfl
  | cons node rest ih =>
    intro before hall
    rw [List.all_cons, Bool.and_eq_true] at hall
    cases node with
    | text s =>
      show parse_udtale_core (UdtaleNode.text s :: before) rest =
        specLabelPass rest (backLabel before)
      rw [ih _ hall.2, backLabel]
    | tag cls txt audio =>
      have hdisj := hall.1
      rw [nodeClassesDisjoint, Bool.not_eq_eq_eq_not, Bool.not_true,
        Bool.and_eq_false_iff] at hdisj
      by_cases hly : cls.contains "lydskrift"
      · have hdk : cls.contains "diskret" = false := by
          cases hdisj with
          | inl h => exact h
          | inr h => rw [hly] at h; exact absurd h (by simp)
        rw [parse_udtale_core, if_pos hly, specLabelPass, if_pos hly,
          ih _ hall.2, backLabel, if_neg (by rw [hdk]; exact Bool.false_ne_true),
          if_pos hly]
      · by_cases hdk : cls.contains "diskret"
        · rw [parse_udtale_core, if_neg hly, specLabelPass, if_neg hly,
            if_pos hdk, ih _ hall.2, backLabel, if_pos hdk]
        · rw [parse_udtale_core, if_neg hly, specLabelPass, if_neg hly,
            if_neg hdk, ih _ hall.2, backLabel, if_neg hdk, if_neg hly]

/-- C5: on every child list in which no node carries both the
"discrete-label" and the "transcription" marker class, the code's
per-transcription backward scan produces exactly the labels of the
spec's single forward pass with a pending-label slot started empty. -/
theorem C5_label_refinement :
    ∀ children : List UdtaleNode, children.all nodeClassesDisjoint = true →
      parse_udtale children = specLabelPass children none :=
  fun children h => parse_udtale_core_eq_specLabelPass children [] h

/-- C5 witness: the spec's own example
`[label("navneord"), transcription("[hus]"), transcription("[huːs]")]`. -/
theorem C5_label_refinement_witness :
    ([UdtaleNode.tag ["diskret"] "navneord" none,
      UdtaleNode.tag ["lydskrift"] "[hus]" none,
      UdtaleNode.tag ["lydskrift"] "[huːs]" none].all nodeClassesDisjoint
      = true) ∧
    parse_udtale
        [UdtaleNode.tag ["diskret"] "navneord" none,
         UdtaleNode.tag ["lydskrift"] "[hus]" none,
         UdtaleNode.tag ["lydskrift"] "[huːs]" none] =
      specLabelPass
        [UdtaleNode.tag ["diskret"] "navneord" none,
         UdtaleNode.tag ["lydskrift"] "[hus]" none,
         UdtaleNode.tag ["lydskrift"] "[huːs]" none] none ∧
    parse_udtale
        [UdtaleNode.tag ["diskret"] "navneord" none,
         UdtaleNode.tag ["lydskrift"] "[hus]" none,
         UdtaleNode.tag ["lydskrift"] "[huːs]" none] =
      [{ ipa := "[hus]", audio := none, label := some "navneord" },
       { ipa := "[huːs]", audio := none, label := none }] :=
  ⟨by decide, C5_label_refinement _ (by decide), by decide⟩

/-- The forward detail walk of an expression stops at the next
expression container, so nothing past that container can influence it. -/
theorem walkDetails_stop (u : String) (a : List FixedNode) (n : String)
    (m : Option String) :
    ∀ b c : List FixedNode,
      walkDetails u (a ++ FixedNode.udtryk n m :: b) =
        walkDetails u (a ++ FixedNode.udtryk n m :: c) := by
  induction a with
  | nil => intro b c; rfl
  | cons x a ih =>
    intro b c
    cases x with
    | udtryk n' m' => rfl
    | indent boxes =>
      simp only [List.cons_append, walkDetails, List.append_eq, ih b c]
    | otherTag =>
      simp only [List.cons_append, walkDetails, List.append_eq, ih b c]
    | str =>
      simp only [List.cons_append, walkDetails, List.append_eq, ih b c]

/-- The expression loop skips every sibling that is not an expression
container. -/
theorem parse_fixed_go_skip (mid : List FixedNode)
    (h : mid.all notUdtryk = true) (post : List FixedNode) :
    parse_fixed_go (mid ++ post) = parse_fixed_go post := by
  induction mid with
  | nil => rfl
  | cons x mid ih =>
    rw [List.all_cons, Bool.and_eq_true] at h
    cases x with
    | udtryk n' m' => exact absurd h.1 (by simp [notUdtryk])
    | indent boxes =>
      simpa only [List.cons_append, parse_fixed_go, List.append_eq] using ih h.2
    | otherTag =>
      simpa only [List.cons_append, parse_fixed_go, List.append_eq] using ih h.2
    | str =>
      simpa only [List.cons_append, parse_fixed_go, List.append_eq] using ih h.2

/-- C10: an expression container lacking a highlighted match span yields
no record, and the detail boxes that follow it (up to the next container)
attach to no record either: deleting them leaves the output unchanged.
Moreover every successful run yields exactly one record per matched
container. -/
theorem C10_unmatched_expression :
    (∀ (pre : List FixedNode) (n : String) (mid post : List FixedNode),
        mid.all notUdtryk = true →
        parse_fixed_go (pre ++ FixedNode.udtryk n none :: (mid ++ post)) =
          parse_fixed_go (pre ++ FixedNode.udtryk n none :: post)) ∧
    (∀ (l : List FixedNode) (out : List ExprRec),
        parse_fixed_go l = Except.ok out →
        out.length = l.countP isMatchedUdtryk) := by
  constructor
  · intro pre n mid post hmid
    induction pre with
    | nil =>
      show parse_fixed_go (mid ++ post) = parse_fixed_go post
      exact parse_fixed_go_skip mid hmid post
    | cons x pre ih =>
      cases x with
      | udtryk n' m' =>
        cases m' with
        | none =>
          simpa only [List.cons_append, parse_fixed_go, List.append_eq] using ih
        | some expr =>
          simp only [List.cons_append, parse_fixed_go, List.append_eq]
          rw [walkDetails_stop ("udtryk-" ++ n') pre n none (mid ++ post) post, ih]
      | indent boxes =>
        simpa only [List.cons_append, parse_fixed_go, List.append_eq] using ih
      | otherTag =>
        simpa only [List.cons_append, parse_fixed_go, List.append_eq] using ih
      | str =>
        simpa only [List.cons_append, parse_fixed_go, List.append_eq] using ih
  · intro l
    induction l with
    | nil =>
      intro out h
      cases h
      rfl
    | cons x l ih =>
      intro out h
      cases x with
      | udtryk n' m' =>
        cases m' with
        | none =>
          rw [List.countP_cons]
          simpa [isMatchedUdtryk] using ih out h
        | some expr =>
          rw [parse_fixed_go] at h
          cases hw : walkDetails ("udtryk-" ++ n') l with
          | error e => rw [hw] at h; cases h
          | ok ds =>
            rw [hw] at h
            cases hg : parse_fixed_go l with
            | error e => rw [hg] at h; cases h
            | ok more =>
              rw [hg] at h
              cases h
              rw [List.countP_cons]
              simp [isMatchedUdtryk, ih more hg]
      | indent boxes =>
        rw [List.countP_cons]
        simpa [isMatchedUdtryk] using ih out h
      | otherTag =>
        rw [List.countP_cons]
        simpa [isMatchedUdtryk] using ih out h
      | str =>
        rw [List.countP_cons]
        simpa [isMatchedUdtryk] using ih out h

/-- C10 witness: a matched expression, then a matchless container
followed by a detail box; the detail box binds to nobody and the output
has exactly one record. -/
theorem C10_unmatched_expression_witness :
    parse_fixed_go
        [FixedNode.udtryk "1" (some "gå i hundene"),
         FixedNode.udtryk "2" none,
         FixedNode.indent
           [⟨["grammatik"], "", "g", [], none, none, none, none⟩]] =
      parse_fixed_go
        [FixedNode.udtryk "1" (some "gå i hundene"),
         FixedNode.udtryk "2" none] ∧
    ([{ expression := "gå i hundene", details := [] }] : List ExprRec).length =
      [FixedNode.udtryk "1" (some "gå i hundene"),
       FixedNode.udtryk "2" none].countP isMatchedUdtryk :=
  ⟨C10_unmatched_expression.1 [FixedNode.udtryk "1" (some "gå i hundene")] "2"
      [FixedNode.indent [⟨["grammatik"], "", "g", [], none, none, none, none⟩]]
      [] (by decide),
   C10_unmatched_expression.2
      [FixedNode.udtryk "1" (some "gå i hundene"), FixedNode.udtryk "2" none]
      [{ expression := "gå i hundene", details := [] }] (by rfl)⟩

/-- Inversion: a produced Entry comes from a present article with a
present banner span, carries the source filename, and its headword is
the stripped banner text. -/
theorem parse_entry_ok_some {fn : String} {doc : Doc} {e : Entry}
    (h : parse_entry fn doc = Except.ok (some e)) :
    ∃ art rawHead, doc.artikel = some art ∧ art.bannerMatch = some rawHead ∧
      e.file = fn ∧
      e.headword = pyStrip (stripTrailingDigits (pyStrip rawHead)) := by
  cases hart : doc.artikel with
  | none => simp [parse_entry, hart] at h
  | some art =>
    cases hban : art.bannerMatch with
    | none => simp [parse_entry, hart, hban] at h
    | some raw =>
      simp only [parse_entry, hart, hban] at h
      cases hd : parse_definitions_doc fn doc.betydninger with
      | error e' => simp [hart, hd] at h
      | ok defs =>
        simp only [hart, hd] at h
        cases hf : parse_fixed_expressions (some art) with
        | error e' => simp [hf] at h
        | ok fixed =>
          simp only [hf] at h
          cases ho : parse_orddannelser doc.orddannelser with
          | error e' => simp [ho] at h
          | ok ord =>
            simp only [ho, Except.ok.injEq, Option.some.injEq] at h
            exact ⟨art, raw, rfl, hban, by rw [← h], by rw [← h]⟩

/-- Inversion: the skip signal (`None`) arises only from a missing
`div.artikel`. -/
theorem parse_entry_ok_none {fn : String} {doc : Doc}
    (h : parse_entry fn doc = Except.ok none) :
    doc.artikel = none := by
  cases hart : doc.artikel with
  | none => rfl
  | some art =>
    cases hban : art.bannerMatch with
    | none => simp [parse_entry, hart, hban] at h
    | some raw =>
      simp only [parse_entry, hart, hban] at h
      cases hd : parse_definitions_doc fn doc.betydninger with
      | error e' => simp [hart, hd] at h
      | ok defs =>
        simp only [hart, hd] at h
        cases hf : parse_fixed_expressions (some art) with
        | error e' => simp [hf] at h
        | ok fixed =>
          simp only [hf] at h
          cases ho : parse_orddannelser doc.orddannelser with
          | error e' => simp [ho] at h
          | ok ord => simp [ho] at h

/-- Every filename retained by the driver loop — as a skip or inside an
Entry — ends in `.html`. -/
theorem mainGo_files {l : List (String × Doc)} {es : List Entry}
    {sk : List String} (h : mainGo l = Except.ok (es, sk)) :
    (∀ s ∈ sk, pyEndsWith s ".html" = true) ∧
    (∀ e ∈ es, pyEndsWith e.file ".html" = true) := by
  induction l generalizing es sk with
  | nil =>
    rw [mainGo] at h
    simp only [Except.ok.injEq, Prod.mk.injEq] at h
    rw [← h.1, ← h.2]
    exact ⟨fun s hs => absurd hs (List.not_mem_nil s),
      fun e he => absurd he (List.not_mem_nil e)⟩
  | cons p l ih =>
    by_cases hh : isHtml p
    · rw [mainGo, if_pos hh] at h
      cases hp : parse_entry p.1 p.2 with
      | error e' => rw [hp] at h; simp at h
      | ok o =>
        cases o with
        | none =>
          rw [hp] at h
          cases hm : mainGo l with
          | error e' => rw [hm] at h; simp at h
          | ok pr =>
            obtain ⟨es', sk'⟩ := pr
            rw [hm] at h
            simp only [Except.ok.injEq, Prod.mk.injEq] at h
            rw [← h.1, ← h.2]
            refine ⟨fun s hs => ?_, (ih hm).2⟩
            rcases List.mem_cons.mp hs with hs | hs
            · rw [hs]; exact hh
            · exact (ih hm).1 s hs
        | some ent =>
          rw [hp] at h
          cases hm : mainGo l with
          | error e' => rw [hm] at h; simp at h
          | ok pr =>
            obtain ⟨es', sk'⟩ := pr
            rw [hm] at h
            simp only [Except.ok.injEq, Prod.mk.injEq] at h
            rw [← h.1, ← h.2]
            refine ⟨(ih hm).1, fun e he => ?_⟩
            rcases List.mem_cons.mp he with he | he
            · obtain ⟨_, _, _, _, hfile, _⟩ := parse_entry_ok_some hp
              rw [he, hfile]; exact hh
            · exact (ih hm).2 e he
    · rw [mainGo, if_neg hh] at h
      exact ih h

/-- C9: only `.html` files are considered: the driver loop is unchanged
by deleting the non-`.html` files, and a non-`.html` filename appears
neither among the skipped names nor as any Entry's source file. -/
theorem C9_nonhtml_ignored :
    (∀ l : List (String × Doc), mainGo l = mainGo (l.filter isHtml)) ∧
    (∀ (dir : List (String × Doc)) (es : List Entry) (sk : List String)
        (fn : String),
        main' dir = Except.ok (es, sk) → pyEndsWith fn ".html" = false →
        (∀ s ∈ sk, s ≠ fn) ∧ (∀ e ∈ es, e.file ≠ fn)) := by
  constructor
  · intro l
    induction l with
    | nil => rfl
    | cons p l ih =>
      by_cases hh : isHtml p
      · rw [List.filter_cons_of_pos hh, mainGo, if_pos hh, mainGo, if_pos hh, ih]
      · rw [List.filter_cons_of_neg (by simpa using hh), mainGo, if_neg hh, ih]
  · intro dir es sk fn h hfn
    have hfiles := mainGo_files h
    constructor
    · intro s hs heq
      have := hfiles.1 s hs
      rw [heq, hfn] at this
      cases this
    · intro e he heq
      have := hfiles.2 e he
      rw [heq, hfn] at this
      cases this

/-- C9 witness: a directory containing a `.txt` name; the loop ignores
it and its name reaches neither output collection. -/
theorem C9_nonhtml_ignored_witness :
    mainGo [("a.txt", (⟨none, none, none, none, none, none⟩ : Doc))] =
      mainGo ([("a.txt", (⟨none, none, none, none, none, none⟩ : Doc))].filter
        isHtml) ∧
    decide ("a.txt" ∈ (["x.html"] : List String)) = false := by
  refine ⟨C9_nonhtml_ignored.1 _, ?_⟩
  have h := (C9_nonhtml_ignored.2
    [("a.txt", (⟨none, none, none, none, none, none⟩ : Doc)),
     ("x.html", (⟨none, none, none, none, none, none⟩ : Doc))]
    [] ["x.html"] "a.txt" (by rfl) (by decide)).1
  simp only [decide_eq_false_iff_not]
  intro hmem
  exact h "a.txt" hmem rfl

/-- A `dropWhile` whose predicate holds nowhere is the identity. -/
theorem dropWhile_eq_self_of {p : Char → Bool} :
    ∀ {l : List Char}, (∀ c ∈ l, p c = false) → l.dropWhile p = l := by
  intro l
  induction l with
  | nil => intro _; rfl
  | cons c t ih =>
    intro h
    rw [List.dropWhile_cons, h c (List.mem_cons_self c t)]
    simp

/-- The head surviving a `dropWhile` falsifies the predicate. -/
theorem dropWhile_head_false {p : Char → Bool} :
    ∀ {l : List Char} {c : Char} {t : List Char},
      l.dropWhile p = c :: t → p c = false := by
  intro l
  induction l with
  | nil => intro c t h; cases h
  | cons x xs ih =>
    intro c t h
    rw [List.dropWhile_cons] at h
    by_cases hx : p x
    · rw [if_pos hx] at h; exact ih h
    · rw [if_neg hx] at h
      injection h with h1 _
      subst h1
      simpa using hx

/-- Stripping trailing digits introduces no new characters. -/
theorem mem_stripTrailingDigits {s : String} {c : Char}
    (hc : c ∈ (stripTrailingDigits s).data) : c ∈ s.data := by
  rw [stripTrailingDigits] at hc
  rw [List.mem_reverse] at hc
  have hsub : List.Sublist (s.data.reverse.dropWhile Char.isDigit)
      s.data.reverse :=
    List.dropWhile_sublist Char.isDigit
  have := hsub.subset hc
  rwa [List.mem_reverse] at this

/-- `pyStrip` is the identity on whitespace-free strings. -/
theorem pyStrip_eq_self {s : String}
    (h : ∀ c ∈ s.data, c.isWhitespace = false) : pyStrip s = s := by
  rw [pyStrip, dropWhile_eq_self_of h,
    dropWhile_eq_self_of (fun c hc => h c (List.mem_reverse.mp hc)),
    List.reverse_reverse]

/-- After `stripTrailingDigits` the string never ends in a digit. -/
theorem endsInDigit_stripTrailingDigits (s : String) :
    endsInDigit (stripTrailingDigits s) = false := by
  rw [endsInDigit, stripTrailingDigits]
  cases h : s.data.reverse.dropWhile Char.isDigit with
  | nil => simp [h]
  | cons c t => simp [h, dropWhile_head_false h]

/-- C4 counterexample: a raw headword of only digits still yields an
Entry — with an empty headword — rather than no Entry. -/
theorem C4_counterexample :
    parse_entry "a.html"
        ⟨some ⟨some "123", none, none⟩, none, none, none, none, none⟩ =
      Except.ok (some ⟨"a.html", "", none, [], [], none, [], [], []⟩) := by
  rfl

/-- C4 (amended): when the raw banner text contains no whitespace, the
produced headword is exactly the raw text minus its trailing digit run,
and it never ends in a digit; it may however be empty, and a document
with an empty headword still yields an Entry. -/
theorem C4_amended_headword :
    ∀ (fn : String) (doc : Doc) (art : ArtikelData) (rawHead : String)
      (e : Entry),
      doc.artikel = some art → art.bannerMatch = some rawHead →
      parse_entry fn doc = Except.ok (some e) →
      (∀ c ∈ rawHead.data, c.isWhitespace = false) →
      e.headword = stripTrailingDigits rawHead ∧
        endsInDigit e.headword = false := by
  intro fn doc art raw e hart hban h hws
  obtain ⟨art', raw', hart', hban', _, hhead⟩ := parse_entry_ok_some h
  rw [hart] at hart'
  injection hart' with h1
  subst h1
  rw [hban] at hban'
  injection hban' with h2
  subst h2
  have hws2 : ∀ c ∈ (stripTrailingDigits raw).data, c.isWhitespace = false :=
    fun c hc => hws c (mem_stripTrailingDigits hc)
  rw [hhead, pyStrip_eq_self hws, pyStrip_eq_self hws2]
  exact ⟨rfl, endsInDigit_stripTrailingDigits raw⟩

/-- C4 witness: headword `"hus3"` loses its disambiguation digit. -/
theorem C4_amended_headword_witness :
    (Entry.headword ⟨"a.html", "hus", none, [], [], none, [], [], []⟩ =
      stripTrailingDigits "hus3") ∧
    endsInDigit
      (Entry.headword ⟨"a.html", "hus", none, [], [], none, [], [], []⟩) =
      false :=
  C4_amended_headword "a.html"
    ⟨some ⟨some "hus3", none, none⟩, none, none, none, none, none⟩
    ⟨some "hus3", none, none⟩ "hus3"
    ⟨"a.html", "hus", none, [], [], none, [], [], []⟩
    rfl rfl (by rfl) (by decide)

/-- Citation parsing succeeds when every box has its `span.citat`. -/
theorem parseExamples_ok :
    ∀ {cs : List CitatBox}, cs.all citWF = true →
      ∃ r, parseExamples cs = Except.ok r := by
  intro cs
  induction cs with
  | nil => intro _; exact ⟨[], rfl⟩
  | cons b bs ih =>
    intro h
    rw [List.all_cons, Bool.and_eq_true] at h
    cases hb : b.citat with
    | none => rw [citWF, hb] at h; cases h.1
    | some txt =>
      obtain ⟨r, hr⟩ := ih h.2
      exact ⟨{ text := txt, source := b.kilde } :: r,
        by simp only [parseExamples, hb, hr]⟩

/-- Building a sense succeeds on a well-formed indent block. -/
theorem mkSense_ok (num : String) {c : IndentContent}
    (h : indentWF c = true) : ∃ s, mkSense num c = Except.ok s := by
  obtain ⟨r, hr⟩ := parseExamples_ok h
  refine ⟨⟨num, c.defBox, c.grammatik.map fun g => g.inline.getD g.txt,
    c.onym.map clean_links, c.relBegreber.map clean_links, r⟩, ?_⟩
  simp only [mkSense, hr]

/-- The indent found by the forward scan is one of the siblings. -/
theorem findIndent_mem :
    ∀ {l : List DefNode} {c : IndentContent},
      findIndent l = some c → DefNode.indent c ∈ l := by
  intro l
  induction l with
  | nil => intro c h; cases h
  | cons x rest ih =>
    intro c h
    cases x with
    | number n => exact List.mem_cons_of_mem _ (ih h)
    | indent c' =>
      rw [findIndent] at h
      injection h with h1
      rw [h1]
      exact List.mem_cons_self _ _
    | other => exact List.mem_cons_of_mem _ (ih h)

/-- The definitions extractor succeeds on well-formed sibling lists. -/
theorem parse_definitions_ok {fn : String} :
    ∀ {l : List DefNode}, l.all defNodeWF = true →
      ∃ out, parse_definitions fn l = Except.ok out := by
  intro l
  induction l with
  | nil => intro _; exact ⟨([], []), rfl⟩
  | cons x rest ih =>
    intro h
    rw [List.all_cons, Bool.and_eq_true] at h
    cases x with
    | number num =>
      cases hfi : findIndent rest with
      | none =>
        obtain ⟨⟨rs, ws⟩, ho⟩ := ih h.2
        exact ⟨(rs, warnMsg fn num :: ws),
          by simp only [parse_definitions, hfi, ho]⟩
      | some c =>
        have hcwf : indentWF c = true := by
          have := List.all_eq_true.mp h.2 _ (findIndent_mem hfi)
          exact this
        obtain ⟨s, hs⟩ := mkSense_ok num hcwf
        obtain ⟨⟨rs, ws⟩, ho⟩ := ih h.2
        exact ⟨(s :: rs, ws), by simp only [parse_definitions, hfi, hs, ho]⟩
    | indent c => exact ih h.2
    | other => exact ih h.2

/-- Classifying one detail box succeeds when its citation box (if any)
is well-formed. -/
theorem classifyBox_ok (u : String) (b : FixedBox)
    (h : fixedBoxWF b = true) : ∃ od, classifyBox u b = Except.ok od := by
  rw [classifyBox]
  split_ifs
  · exact ⟨_, rfl⟩
  · exact ⟨_, rfl⟩
  · exact ⟨_, rfl⟩
  · exact ⟨_, rfl⟩
  · exact ⟨_, rfl⟩
  · cases hcb : b.citat with
    | none => exact ⟨none, rfl⟩
    | some cb =>
      simp only [fixedBoxWF, hcb] at h
      cases hct : cb.citat with
      | none =>
        simp only [citWF, hct, Option.isSome_none] at h
        exact Bool.noConfusion h
      | some txt =>
        exact ⟨some (Detail.exampleD txt cb.kilde), by simp only [hct]⟩

/-- Classifying a box list succeeds when all boxes are well-formed. -/
theorem classifyBoxes_ok (u : String) :
    ∀ {bs : List FixedBox}, bs.all fixedBoxWF = true →
      ∃ ds, classifyBoxes u bs = Except.ok ds := by
  intro bs
  induction bs with
  | nil => intro _; exact ⟨[], rfl⟩
  | cons b bs ih =>
    intro h
    rw [List.all_cons, Bool.and_eq_true] at h
    obtain ⟨od, hod⟩ := classifyBox_ok u b h.1
    obtain ⟨ds, hds⟩ := ih h.2
    cases od with
    | none => exact ⟨ds, by simp only [classifyBoxes, hod, hds]⟩
    | some d => exact ⟨d :: ds, by simp only [classifyBoxes, hod, hds]⟩

/-- The detail walk succeeds on well-formed sibling lists. -/
theorem walkDetails_ok (u : String) :
    ∀ {l : List FixedNode}, l.all fixedNodeWF = true →
      ∃ ds, walkDetails u l = Except.ok ds := by
  intro l
  induction l with
  | nil => intro _; exact ⟨[], rfl⟩
  | cons x rest ih =>
    intro h
    rw [List.all_cons, Bool.and_eq_true] at h
    cases x with
    | udtryk n m => exact ⟨[], rfl⟩
    | indent boxes =>
      obtain ⟨ds, hds⟩ := classifyBoxes_ok u (h.1)
      obtain ⟨more, hmore⟩ := ih h.2
      exact ⟨ds ++ more, by simp only [walkDetails, hds, hmore]⟩
    | otherTag => exact ih h.2
    | str => exact ih h.2

/-- The fixed-expressions loop succeeds on well-formed sibling lists. -/
theorem parse_fixed_go_ok :
    ∀ {l : List FixedNode}, l.all fixedNodeWF = true →
      ∃ out, parse_fixed_go l = Except.ok out := by
  intro l
  induction l with
  | nil => intro _; exact ⟨[], rfl⟩
  | cons x rest ih =>
    intro h
    rw [List.all_cons, Bool.and_eq_true] at h
    cases x with
    | udtryk n m =>
      cases m with
      | none => exact ih h.2
      | some expr =>
        obtain ⟨ds, hds⟩ := walkDetails_ok ("udtryk-" ++ n) h.2
        obtain ⟨more, hmore⟩ := ih h.2
        exact ⟨{ expression := expr, details := ds } :: more,
          by simp only [parse_fixed_go, hds, hmore]⟩
    | indent boxes => exact ih h.2
    | otherTag => exact ih h.2
    | str => exact ih h.2

/-- The word-formation loop succeeds when every box has its label span. -/
theorem parse_orddannelser_go_ok :
    ∀ {boxes : List OrdBox}, boxes.all ordBoxWF = true →
      ∀ acc, ∃ r, parse_orddannelser_go boxes acc = Except.ok r := by
  intro boxes
  induction boxes with
  | nil => intro _ acc; exact ⟨acc, rfl⟩
  | cons b bs ih =>
    intro h acc
    rw [List.all_cons, Bool.and_eq_true] at h
    cases hb : b.stempel with
    | none => rw [ordBoxWF, hb] at h; cases h.1
    | some cat =>
      obtain ⟨r, hr⟩ := ih h.2 (dictInsert acc cat (ordItems b))
      exact ⟨r, by simp only [parse_orddannelser_go, hb, hr]⟩

/-- C3 counterexample: an article whose banner `span.match` is missing
makes `parse_entry` raise instead of reporting a skip. -/
theorem C3_counterexample :
    parse_entry "a.html"
        ⟨some ⟨none, none, none⟩, none, none, none, none, none⟩ =
      Except.error "AttributeError" := by
  rfl

/-- C3 (amended): a missing root article is the skip signal; an article
whose banner span is missing raises `AttributeError` past the assembler;
and on documents whose remaining fallible spots are well-formed the
parse returns a complete Entry. -/
theorem C3_amended_skip_or_raise :
    ∀ (fn : String) (doc : Doc),
      (doc.artikel = none → parse_entry fn doc = Except.ok none) ∧
      (∀ art, doc.artikel = some art → art.bannerMatch = none →
        parse_entry fn doc = Except.error "AttributeError") ∧
      (∀ art rawHead, doc.artikel = some art →
        art.bannerMatch = some rawHead → docWF doc = true →
        ∃ e, parse_entry fn doc = Except.ok (some e)) := by
  intro fn doc
  refine ⟨?_, ?_, ?_⟩
  · intro h
    simp [parse_entry, h]
  · intro art hart hban
    simp [parse_entry, hart, hban]
  · intro art raw hart hban hwf
    rw [docWF, Bool.and_eq_true, Bool.and_eq_true] at hwf
    obtain ⟨⟨hw1, hw2⟩, hw3⟩ := hwf
    have hdefs : ∃ out, parse_definitions_doc fn doc.betydninger =
        Except.ok out := by
      cases hb : doc.betydninger with
      | none => exact ⟨([], []), rfl⟩
      | some l =>
        rw [hb] at hw1
        exact parse_definitions_ok hw1
    obtain ⟨defs, hd⟩ := hdefs
    have hfixed : ∃ out, parse_fixed_expressions (some art) =
        Except.ok out := by
      cases hfa : art.fasteUdtryk with
      | none => exact ⟨[], by simp only [parse_fixed_expressions, hfa]⟩
      | some nodes =>
        simp only [hart, hfa] at hw3
        obtain ⟨out, ho⟩ := parse_fixed_go_ok hw3
        exact ⟨out, by simp only [parse_fixed_expressions, hfa, ho]⟩
    obtain ⟨fixed, hf⟩ := hfixed
    have hords : ∃ out, parse_orddannelser doc.orddannelser =
        Except.ok out := by
      cases hor : doc.orddannelser with
      | none => exact ⟨[], rfl⟩
      | some boxes =>
        rw [hor] at hw2
        obtain ⟨r, hr⟩ := parse_orddannelser_go_ok hw2 []
        exact ⟨r, by simp only [parse_orddannelser, hr]⟩
    obtain ⟨ord, ho⟩ := hords
    simp only [parse_entry, hart, hban, hd, hf, ho]
    exact ⟨_, rfl⟩

/-- C3 witness: the skip branch, the raising branch and the complete
branch, each on a concrete document. -/
theorem C3_amended_skip_or_raise_witness :
    parse_entry "a.html" ⟨none, none, none, none, none, none⟩ =
      Except.ok none ∧
    parse_entry "b.html"
        ⟨some ⟨none, none, none⟩, none, none, none, none, none⟩ =
      Except.error "AttributeError" ∧
    isOkB (parse_entry "c.html"
      ⟨some ⟨some "hus", none, none⟩, none, none, none, none, none⟩) = true := by
  refine ⟨(C3_amended_skip_or_raise "a.html"
      ⟨none, none, none, none, none, none⟩).1 rfl,
    (C3_amended_skip_or_raise "b.html"
      ⟨some ⟨none, none, none⟩, none, none, none, none, none⟩).2.1
      ⟨none, none, none⟩ rfl rfl, ?_⟩
  obtain ⟨e, he⟩ := (C3_amended_skip_or_raise "c.html"
      ⟨some ⟨some "hus", none, none⟩, none, none, none, none, none⟩).2.2
    ⟨some "hus", none, none⟩ "hus" rfl rfl (by decide)
  rw [he]
  rfl

/-- C1 counterexample: with siblings `[number "1", number "2", indent]`
the code binds sense "1" to the indent block beyond the subsequent
number marker — both senses are produced and nothing is logged — where
the claim demands sense "1" be dropped and the miss logged. -/
theorem C1_counterexample :
    parse_definitions "x.html"
        [DefNode.number "1", DefNode.number "2",
         DefNode.indent ⟨none, none, none, none, []⟩] =
      Except.ok
        ([⟨"1", none, none, none, none, []⟩,
          ⟨"2", none, none, none, none, []⟩], []) := by
  rfl

/-- Deleting a number marker from the middle of a sibling list does not
change which indent block a forward scan finds. -/
theorem findIndent_append_number (n : String) :
    ∀ a b : List DefNode,
      findIndent (a ++ DefNode.number n :: b) = findIndent (a ++ b) := by
  intro a
  induction a with
  | nil => intro b; rfl
  | cons x a ih =>
    intro b
    cases x with
    | number m => simp only [List.cons_append, findIndent, List.append_eq, ih]
    | indent c => simp only [List.cons_append, findIndent]
    | other => simp only [List.cons_append, findIndent, List.append_eq, ih]

/-- C1 (amended): a number marker binds to the first following sibling
carrying the indent marker even when that indent lies beyond later
number markers; only when no indent follows at all is the miss logged
and that single sense dropped, the remaining senses being unaffected. -/
theorem C1_amended_defscan :
    ∀ (fn : String) (pre post : List DefNode) (num : String)
      (out : List SenseRecord × List String),
      parse_definitions fn (pre ++ DefNode.number num :: post) =
        Except.ok out →
      (∀ c s, findIndent post = some c → mkSense num c = Except.ok s →
        s ∈ out.1) ∧
      (findIndent post = none →
        warnMsg fn num ∈ out.2 ∧
        ∃ ws, parse_definitions fn (pre ++ post) = Except.ok (out.1, ws)) := by
  intro fn pre post num
  induction pre with
  | nil =>
    intro out h
    simp only [List.nil_append] at h
    cases hfi : findIndent post with
    | none =>
      simp only [parse_definitions, hfi] at h
      cases hp : parse_definitions fn post with
      | error e => simp only [hp] at h; simp at h
      | ok pr =>
        obtain ⟨rs, ws⟩ := pr
        simp only [hp, Except.ok.injEq] at h
        constructor
        · intro c s hc hs
          exact Option.noConfusion hc
        · intro _
          refine ⟨?_, ⟨ws, ?_⟩⟩
          · rw [← h]; exact List.mem_cons_self _ _
          · simp only [List.nil_append]
            rw [← h]
            exact hp
    | some c =>
      simp only [parse_definitions, hfi] at h
      cases hmk : mkSense num c with
      | error e => simp only [hmk] at h; simp at h
      | ok s0 =>
        simp only [hmk] at h
        cases hp : parse_definitions fn post with
        | error e => simp only [hp] at h; simp at h
        | ok pr =>
          obtain ⟨rs, ws⟩ := pr
          simp only [hp, Except.ok.injEq] at h
          constructor
          · intro c' s' hc' hs'
            injection hc' with hcc
            subst hcc
            rw [hmk] at hs'
            injection hs' with hss
            subst hss
            rw [← h]
            exact List.mem_cons_self _ _
          · intro hn
            exact Option.noConfusion hn
  | cons x pre ih =>
    intro out h
    cases x with
    | indent c =>
      simp only [List.cons_append, parse_definitions] at h
      obtain ⟨h1, h2⟩ := ih out h
      refine ⟨h1, fun hn => ?_⟩
      obtain ⟨hw, ws, hp⟩ := h2 hn
      exact ⟨hw, ws, by simp only [List.cons_append, parse_definitions]; exact hp⟩
    | other =>
      simp only [List.cons_append, parse_definitions] at h
      obtain ⟨h1, h2⟩ := ih out h
      refine ⟨h1, fun hn => ?_⟩
      obtain ⟨hw, ws, hp⟩ := h2 hn
      exact ⟨hw, ws, by simp only [List.cons_append, parse_definitions]; exact hp⟩
    | number m =>
      simp only [List.cons_append] at h
      have hfi2 := findIndent_append_number num pre post
      cases hf : findIndent (pre ++ post) with
      | none =>
        have hfiA : findIndent (pre ++ DefNode.number num :: post) = none := by
          rw [hfi2, hf]
        simp only [parse_definitions, hfiA] at h
        cases hp : parse_definitions fn (pre ++ DefNode.number num :: post) with
        | error e => simp only [hp] at h; simp at h
        | ok pr =>
          obtain ⟨rs, ws⟩ := pr
          simp only [hp, Except.ok.injEq] at h
          obtain ⟨h1, h2⟩ := ih (rs, ws) hp
          constructor
          · intro c s hc hs
            have hmem := h1 c s hc hs
            rw [← h]
            exact hmem
          · intro hn
            obtain ⟨hw, ws0, hp0⟩ := h2 hn
            refine ⟨?_, ⟨warnMsg fn m :: ws0, ?_⟩⟩
            · rw [← h]
              exact List.mem_cons_of_mem _ hw
            · rw [← h]
              simp only [List.cons_append, parse_definitions, List.append_eq,
                hf, hp0]
      | some c =>
        have hfiA : findIndent (pre ++ DefNode.number num :: post) = some c := by
          rw [hfi2, hf]
        simp only [parse_definitions, hfiA] at h
        cases hmk : mkSense m c with
        | error e => simp only [hmk] at h; simp at h
        | ok s0 =>
          simp only [hmk] at h
          cases hp : parse_definitions fn (pre ++ DefNode.number num :: post) with
          | error e => simp only [hp] at h; simp at h
          | ok pr =>
            obtain ⟨rs, ws⟩ := pr
            simp only [hp, Except.ok.injEq] at h
            obtain ⟨h1, h2⟩ := ih (rs, ws) hp
            constructor
            · intro c' s' hc' hs'
              have hmem := h1 c' s' hc' hs'
              rw [← h]
              exact List.mem_cons_of_mem _ hmem
            · intro hn
              obtain ⟨hw, ws0, hp0⟩ := h2 hn
              refine ⟨by rw [← h]; exact hw, ⟨ws0, ?_⟩⟩
              rw [← h]
              simp only [List.cons_append, parse_definitions, List.append_eq,
                hf, hmk, hp0]

/-- C1 witness: a sense whose indent follows immediately is kept; a
sense with no following indent is logged. -/
theorem C1_amended_defscan_witness :
    ((⟨"1", none, none, none, none, []⟩ : SenseRecord) ∈
      [(⟨"1", none, none, none, none, []⟩ : SenseRecord)]) ∧
    warnMsg "x.html" "2" ∈
      ["Warning x.html: no definitionIndent for sense 2"] :=
  ⟨(C1_amended_defscan "x.html" []
      [DefNode.indent ⟨none, none, none, none, []⟩] "1"
      ([⟨"1", none, none, none, none, []⟩], []) (by rfl)).1
      ⟨none, none, none, none, []⟩ ⟨"1", none, none, none, none, []⟩
      rfl (by rfl),
   ((C1_amended_defscan "x.html" [] [] "2"
      ([], [warnMsg "x.html" "2"]) (by rfl)).2 rfl).1⟩

/-- Every produced sense record is `mkSense` of some number marker and
some indent block of the sibling list. -/
theorem parse_definitions_mem {fn : String} :
    ∀ {l : List DefNode} {out : List SenseRecord × List String}
      {r : SenseRecord},
      parse_definitions fn l = Except.ok out → r ∈ out.1 →
      ∃ num c, DefNode.indent c ∈ l ∧ mkSense num c = Except.ok r := by
  intro l
  induction l with
  | nil =>
    intro out r h hr
    simp only [parse_definitions, Except.ok.injEq] at h
    rw [← h] at hr
    cases hr
  | cons x rest ih =>
    intro out r h hr
    cases x with
    | number num =>
      cases hfi : findIndent rest with
      | none =>
        simp only [parse_definitions, hfi] at h
        cases hp : parse_definitions fn rest with
        | error e => simp only [hp] at h; simp at h
        | ok pr =>
          obtain ⟨rs, ws⟩ := pr
          simp only [hp, Except.ok.injEq] at h
          rw [← h] at hr
          obtain ⟨n2, c2, hmem, hmk⟩ := ih hp hr
          exact ⟨n2, c2, List.mem_cons_of_mem _ hmem, hmk⟩
      | some c =>
        simp only [parse_definitions, hfi] at h
        cases hmk : mkSense num c with
        | error e => simp only [hmk] at h; simp at h
        | ok s0 =>
          simp only [hmk] at h
          cases hp : parse_definitions fn rest with
          | error e => simp only [hp] at h; simp at h
          | ok pr =>
            obtain ⟨rs, ws⟩ := pr
            simp only [hp, Except.ok.injEq] at h
            rw [← h] at hr
            rcases List.mem_cons.mp hr with hr | hr
            · exact ⟨num, c, List.mem_cons_of_mem _ (findIndent_mem hfi),
                by rw [hmk, hr]⟩
            · obtain ⟨n2, c2, hmem, hmk2⟩ := ih hp hr
              exact ⟨n2, c2, List.mem_cons_of_mem _ hmem, hmk2⟩
    | indent c =>
      simp only [parse_definitions] at h
      obtain ⟨n2, c2, hmem, hmk⟩ := ih h hr
      exact ⟨n2, c2, List.mem_cons_of_mem _ hmem, hmk⟩
    | other =>
      simp only [parse_definitions] at h
      obtain ⟨n2, c2, hmem, hmk⟩ := ih h hr
      exact ⟨n2, c2, List.mem_cons_of_mem _ hmem, hmk⟩

/-- The optional-key fields of a built sense mirror the presence of the
`onym` and `rel-begreber` boxes. -/
theorem mkSense_fields {num : String} {c : IndentContent} {r : SenseRecord}
    (h : mkSense num c = Except.ok r) :
    r.see_also = c.onym.map clean_links ∧
      r.related = c.relBegreber.map clean_links := by
  rw [mkSense] at h
  cases hpe : parseExamples c.citatBoxes with
  | error e => rw [hpe] at h; cases h
  | ok exs =>
    rw [hpe] at h
    simp only [Except.ok.injEq] at h
    rw [← h]
    exact ⟨rfl, rfl⟩

/-- The four unconditional keys of a sense dict. -/
theorem senseKeys_base (r : SenseRecord) :
    "number" ∈ senseKeys r ∧ "definition" ∈ senseKeys r ∧
      "grammar" ∈ senseKeys r ∧ "examples" ∈ senseKeys r := by
  rw [senseKeys]
  cases r.see_also <;> cases r.related <;> simp

/-- The `see_also` key is in the dict exactly when the field was set. -/
theorem senseKeys_see_also (r : SenseRecord) :
    ("see_also" ∈ senseKeys r) ↔ r.see_also.isSome = true := by
  rw [senseKeys]
  cases r.see_also <;> cases r.related <;> simp

/-- The `related` key is in the dict exactly when the field was set. -/
theorem senseKeys_related (r : SenseRecord) :
    ("related" ∈ senseKeys r) ↔ r.related.isSome = true := by
  rw [senseKeys]
  cases r.see_also <;> cases r.related <;> simp

/-- C2 counterexample: a definition record built from an indent block
without `onym`/`rel-begreber` boxes lacks the `see_also` and `related`
keys entirely, against the claim that they are always present. -/
theorem C2_counterexample :
    parse_definitions "x.html"
        [DefNode.number "1", DefNode.indent ⟨none, none, none, none, []⟩] =
      Except.ok ([⟨"1", none, none, none, none, []⟩], []) ∧
    decide ("see_also" ∈
      senseKeys (⟨"1", none, none, none, none, []⟩ : SenseRecord)) = false ∧
    decide ("related" ∈
      senseKeys (⟨"1", none, none, none, none, []⟩ : SenseRecord)) = false :=
  ⟨rfl, by decide, by decide⟩

/-- C2 (amended): every Entry dict carries all nine top-level keys, and
every definition record carries the `number`, `definition`, `grammar`
and `examples` keys (absent markup giving null/empty values); the
`see_also` and `related` keys however are present exactly when the
bound indent block has the corresponding box. -/
theorem C2_amended_keys :
    (∀ (fn : String) (l : List DefNode)
        (out : List SenseRecord × List String) (r : SenseRecord),
        parse_definitions fn l = Except.ok out → r ∈ out.1 →
        ("number" ∈ senseKeys r ∧ "definition" ∈ senseKeys r ∧
          "grammar" ∈ senseKeys r ∧ "examples" ∈ senseKeys r) ∧
        ∃ c, DefNode.indent c ∈ l ∧
          (("see_also" ∈ senseKeys r) ↔ c.onym.isSome = true) ∧
          (("related" ∈ senseKeys r) ↔ c.relBegreber.isSome = true)) ∧
    (∀ (fn : String) (doc : Doc) (e : Entry),
        parse_entry fn doc = Except.ok (some e) →
        entryKeys e = ["file", "headword", "pos", "udtale", "wordforms",
          "etymology", "definitions", "fixed_expressions", "orddannelser"]) := by
  constructor
  · intro fn l out r h hr
    obtain ⟨num, c, hmem, hmk⟩ := parse_definitions_mem h hr
    obtain ⟨hsa, hrel⟩ := mkSense_fields hmk
    refine ⟨senseKeys_base r, ⟨c, hmem, ?_, ?_⟩⟩
    · rw [senseKeys_see_also, hsa]
      cases c.onym <;> simp
    · rw [senseKeys_related, hrel]
      cases c.relBegreber <;> simp
  · intro fn doc e _
    rfl

/-- C2 witness: the unconditional key on a concrete record, and the
full top-level key list on a concrete Entry. -/
theorem C2_amended_keys_witness :
    ("number" ∈
      senseKeys (⟨"1", none, none, some ["ab"], none, []⟩ : SenseRecord)) ∧
    entryKeys ⟨"c.html", "hus", none, [], [], none, [], [], []⟩ =
      ["file", "headword", "pos", "udtale", "wordforms", "etymology",
       "definitions", "fixed_expressions", "orddannelser"] :=
  ⟨((C2_amended_keys.1 "x.html"
      [DefNode.number "1",
       DefNode.indent ⟨none, none, some ["ab1"], none, []⟩]
      ([⟨"1", none, none, some ["ab"], none, []⟩], [])
      ⟨"1", none, none, some ["ab"], none, []⟩ (by rfl) (by decide)).1).1,
   C2_amended_keys.2 "c.html"
      ⟨some ⟨some "hus", none, none⟩, none, none, none, none, none⟩
      ⟨"c.html", "hus", none, [], [], none, [], [], []⟩ (by rfl)⟩

/-- `codeLe` is total. -/
theorem codeLe_total : ∀ a b : List Char,
    codeLe a b = true ∨ codeLe b a = true := by
  intro a
  induction a with
  | nil => intro b; left; rfl
  | cons c cs ih =>
    intro b
    cases b with
    | nil => right; rfl
    | cons d ds =>
      by_cases hcd : c = d
      · subst hcd
        rcases ih ds with h | h
        · left; simp only [codeLe, if_pos rfl]; exact h
        · right; simp only [codeLe, if_pos rfl]; exact h
      · rcases lt_trichotomy c d with h | h | h
        · left
          simp only [codeLe, if_neg hcd]
          exact decide_eq_true h
        · exact absurd h hcd
        · right
          simp only [codeLe, if_neg (fun hh : d = c => hcd hh.symm)]
          exact decide_eq_true h

/-- `codeLe` is transitive. -/
theorem codeLe_trans : ∀ a b c : List Char,
    codeLe a b = true → codeLe b c = true → codeLe a c = true := by
  intro a
  induction a with
  | nil => intro b c _ _; rfl
  | cons x xs ih =>
    intro b c h1 h2
    cases b with
    | nil => cases h1
    | cons y ys =>
      cases c with
      | nil => cases h2
      | cons z zs =>
        simp only [codeLe] at h1 h2 ⊢
        by_cases hxy : x = y
        · subst hxy
          rw [if_pos rfl] at h1
          by_cases hyz : x = z
          · subst hyz
            rw [if_pos rfl] at h2 ⊢
            exact ih ys zs h1 h2
          · rw [if_neg hyz] at h2 ⊢
            exact h2
        · rw [if_neg hxy] at h1
          have hlt1 : x < y := of_decide_eq_true h1
          by_cases hyz : y = z
          · subst hyz
            rw [if_neg hxy]
            exact decide_eq_true hlt1
          · rw [if_neg hyz] at h2
            have hlt2 : y < z := of_decide_eq_true h2
            have hlt : x < z := lt_trans hlt1 hlt2
            rw [if_neg (ne_of_lt hlt)]
            exact decide_eq_true hlt

/-- `codeLe` both ways forces equality. -/
theorem codeLe_antisymm : ∀ a b : List Char,
    codeLe a b = true → codeLe b a = true → a = b := by
  intro a
  induction a with
  | nil =>
    intro b h1 h2
    cases b with
    | nil => rfl
    | cons d ds => cases h2
  | cons x xs ih =>
    intro b h1 h2
    cases b with
    | nil => cases h1
    | cons y ys =>
      simp only [codeLe] at h1 h2
      by_cases hxy : x = y
      · subst hxy
        rw [if_pos rfl] at h1 h2
        rw [ih ys h1 h2]
      · rw [if_neg hxy] at h1
        rw [if_neg fun hh => hxy hh.symm] at h2
        exact ((lt_irrefl x)
          (lt_trans (of_decide_eq_true h1) (of_decide_eq_true h2))).elim

/-- Sorting only permutes the directory listing. -/
theorem sortFiles_perm (dir : List (String × Doc)) :
    (sortFiles dir).Perm dir :=
  List.perm_insertionSort _ dir

/-- The sorted listing is sorted under the filename order. -/
theorem sortFiles_sorted (dir : List (String × Doc)) :
    (sortFiles dir).Sorted fun a b => fileLe a b = true := by
  haveI : IsTotal (String × Doc) (fun a b => fileLe a b = true) :=
    ⟨fun a b => codeLe_total _ _⟩
  haveI : IsTrans (String × Doc) (fun a b => fileLe a b = true) :=
    ⟨fun a b c => codeLe_trans _ _ _⟩
  exact List.sorted_insertionSort _ dir

/-- With distinct filenames, the sorted order is determined by the
multiset of entries alone: permuting the input listing cannot change it. -/
theorem sortFiles_eq_of_perm {dir dir' : List (String × Doc)}
    (hperm : dir.Perm dir')
    (hnd : dir.Pairwise fun a b => a.1 ≠ b.1) :
    sortFiles dir = sortFiles dir' := by
  have hnd1 : (sortFiles dir).Pairwise fun a b => a.1 ≠ b.1 :=
    ((sortFiles_perm dir).pairwise_iff fun {_ _} h => Ne.symm h).mpr hnd
  have hnd2 : (sortFiles dir').Pairwise fun a b => a.1 ≠ b.1 :=
    ((sortFiles_perm dir').pairwise_iff fun {_ _} h => Ne.symm h).mpr
      ((hperm.pairwise_iff fun {_ _} h => Ne.symm h).mp hnd)
  haveI : IsAntisymm (String × Doc)
      (fun a b => fileLe a b = true ∧ a.1 ≠ b.1) := by
    refine ⟨fun a b h1 h2 => ?_⟩
    have hdata : a.1.data = b.1.data := codeLe_antisymm _ _ h1.1 h2.1
    have heq : a.1 = b.1 := congrArg String.mk hdata
    exact (h1.2 heq).elim
  have hs1 : (sortFiles dir).Sorted
      (fun a b : String × Doc => fileLe a b = true ∧ a.1 ≠ b.1) :=
    List.Pairwise.and (sortFiles_sorted dir) hnd1
  have hs2 : (sortFiles dir').Sorted
      (fun a b : String × Doc => fileLe a b = true ∧ a.1 ≠ b.1) :=
    List.Pairwise.and (sortFiles_sorted dir') hnd2
  exact List.eq_of_perm_of_sorted
    ((sortFiles_perm dir).trans (hperm.trans (sortFiles_perm dir').symm)) hs1 hs2

/-- Characterization of a crash-free driver loop: it succeeds, the skip
report is exactly the `.html` files with no root article (in input
order), the entries carry exactly the `.html` files with a root article,
and entries plus skips account for every `.html` file. -/
theorem mainGo_spec :
    ∀ {l : List (String × Doc)},
      (∀ p ∈ l, parseCrashes p = false) →
      ∃ es sk, mainGo l = Except.ok (es, sk) ∧
        sk = (l.filter fun q => isHtml q && q.2.artikel.isNone).map Prod.fst ∧
        es.map Entry.file =
          (l.filter fun q => isHtml q && !q.2.artikel.isNone).map Prod.fst ∧
        es.length + sk.length = (l.filter isHtml).length := by
  intro l
  induction l with
  | nil => intro _; exact ⟨[], [], rfl, rfl, rfl, rfl⟩
  | cons p l ih =>
    intro h
    obtain ⟨es, sk, hm, hsk, hes, hlen⟩ :=
      ih fun q hq => h q (List.mem_cons_of_mem _ hq)
    have hp := h p (List.mem_cons_self _ _)
    by_cases hh : isHtml p = true
    · cases hpe : parse_entry p.1 p.2 with
      | error e =>
        rw [parseCrashes, hpe] at hp
        cases hp
      | ok o =>
        cases o with
        | none =>
          have hart : p.2.artikel = none := parse_entry_ok_none hpe
          refine ⟨es, p.1 :: sk, ?_, ?_, ?_, ?_⟩
          · simp [mainGo, hh, hpe, hm]
          · simp [List.filter_cons, hh, hart, hsk]
          · simp [List.filter_cons, hh, hart, hes]
          · simp [List.filter_cons, hh, hart]
            omega
        | some ent =>
          obtain ⟨art, raw, hart, _, hfile, _⟩ := parse_entry_ok_some hpe
          refine ⟨ent :: es, sk, ?_, ?_, ?_, ?_⟩
          · simp [mainGo, hh, hpe, hm]
          · simp [List.filter_cons, hh, hart, hsk]
          · simp [List.filter_cons, hh, hart, hes, hfile]
          · simp [List.filter_cons, hh, hart]
            omega
    · have hb : isHtml p = false := by
        revert hh
        cases isHtml p
        · intro _; rfl
        · intro hh; exact absurd rfl hh
      refine ⟨es, sk, ?_, ?_, ?_, ?_⟩
      · rw [mainGo, if_neg hh]
        exact hm
      · simp [List.filter_cons, hb, hsk]
      · simp [List.filter_cons, hb, hes]
      · simp [List.filter_cons, hb, hlen]

/-- C8 counterexample: one `.html` document with an article but no
banner span makes the whole batch abort with an exception — the claim's
"no fatal abort path for the batch as a whole" fails. -/
theorem C8_counterexample :
    main' [("a.html",
        ⟨some ⟨none, none, none⟩, none, none, none, none, none⟩)] =
      Except.error "AttributeError" := by
  rfl

/-- C8 (amended): on a crash-free directory with distinct filenames the
driver succeeds, processes the files in sorted (lexicographic) filename
order independently of the listing order, retains exactly the `.html`
files lacking a root article in the skip report, and its totals account
for every `.html` file; a document that raises, however, aborts the
whole batch. -/
theorem C8_amended_driver :
    ∀ dir : List (String × Doc),
      (∀ p ∈ dir, parseCrashes p = false) →
      dir.Pairwise (fun a b => a.1 ≠ b.1) →
      (∃ es sk, main' dir = Except.ok (es, sk) ∧
        sk = ((sortFiles dir).filter fun q =>
          isHtml q && q.2.artikel.isNone).map Prod.fst ∧
        es.map Entry.file = ((sortFiles dir).filter fun q =>
          isHtml q && !q.2.artikel.isNone).map Prod.fst ∧
        es.length + sk.length = ((sortFiles dir).filter isHtml).length) ∧
      (∀ dir', dir.Perm dir' → main' dir = main' dir') := by
  intro dir hsafe hnd
  constructor
  · exact mainGo_spec fun p hp => hsafe p ((sortFiles_perm dir).mem_iff.mp hp)
  · intro dir' hperm
    rw [main', main', sortFiles_eq_of_perm hperm hnd]

/-- C8 witness: a concrete two-file directory given in reversed order;
the driver output is order-independent, sorted, with `a.html` (no root
article) skipped and `b.html` parsed. -/
theorem C8_amended_driver_witness :
    main' [("b.html",
        (⟨some ⟨some "hus3", none, none⟩, none, none, none, none, none⟩ : Doc)),
      ("a.html", (⟨none, none, none, none, none, none⟩ : Doc))] =
      main' [("a.html", (⟨none, none, none, none, none, none⟩ : Doc)),
        ("b.html",
          (⟨some ⟨some "hus3", none, none⟩, none, none, none, none,
            none⟩ : Doc))] ∧
    main' [("b.html",
        (⟨some ⟨some "hus3", none, none⟩, none, none, none, none, none⟩ : Doc)),
      ("a.html", (⟨none, none, none, none, none, none⟩ : Doc))] =
      Except.ok ([⟨"b.html", "hus", none, [], [], none, [], [], []⟩],
        ["a.html"]) :=
  ⟨(C8_amended_driver
      [("b.html",
        (⟨some ⟨some "hus3", none, none⟩, none, none, none, none, none⟩ : Doc)),
       ("a.html", (⟨none, none, none, none, none, none⟩ : Doc))]
      (by decide) (by decide)).2
      [("a.html", (⟨none, none, none, none, none, none⟩ : Doc)),
       ("b.html",
        (⟨some ⟨some "hus3", none, none⟩, none, none, none, none,
          none⟩ : Doc))]
      (by decide),
   by rfl⟩
